import Mathlib

/-!
Shallow embedding of the GitHub language statistics worker
(`src/index.ts`): a Cloudflare Worker that fetches a user's repositories,
aggregates their primary languages into percentage shares, and renders an
SVG badge.  JavaScript `Map`s are modelled as insertion-ordered association
lists, JS numbers as rationals (the observable values in this program are
ratios of small naturals and their 2-decimal roundings, where binary
floating point agrees with exact rational arithmetic), and the
`crypto.subtle` SHA-1 digest is embedded concretely as a pure function.
-/

namespace GhLangStats

/-- One repository record as parsed from the GitHub API
(interface `GitHubRepo` in `src/index.ts`); `language : string | null`
becomes `Option String`. -/
structure GitHubRepo where
  id : ℕ
  name : String
  full_name : String
  stargazers_count : ℕ
  language : Option String
deriving DecidableEq, Repr

/-! ### JavaScript `Map` model

A JS `Map` preserves insertion order: `set` of a present key updates the
value in place, `set` of a fresh key appends.  We model it as an
association list. -/

/-- `Map.get`: value of the first (and, with distinct keys, only) entry
with key `k`. -/
def mapGet (m : List (String × α)) (k : String) : Option α :=
  (m.find? (fun p => p.1 == k)).map (fun p => p.2)

/-- `Map.set`: update in place if the key is present, append otherwise. -/
def mapSet (m : List (String × α)) (k : String) (v : α) : List (String × α) :=
  if (m.find? (fun p => p.1 == k)).isSome then
    m.map (fun p => if p.1 == k then (k, v) else p)
  else
    m ++ [(k, v)]

/-! ### Decimal formatting (JS `Number.prototype.toString` for naturals) -/

/-- Decimal digit to its character, `0 ↦ '0'`, …, `9 ↦ '9'`. -/
def decDigitChar (d : ℕ) : Char := Char.ofNat (48 + d)

/-- Little-endian base-10 digits of `n`, with explicit fuel (`fuel ≥ n`
suffices); `natDigitsAux fuel 0 = []`. -/
def natDigitsAux : ℕ → ℕ → List ℕ
  | 0, _ => []
  | _ + 1, 0 => []
  | fuel + 1, n + 1 => (n + 1) % 10 :: natDigitsAux fuel ((n + 1) / 10)

/-- Model of JavaScript `String(n)` / template interpolation for a
non-negative integer: its base-10 numeral. -/
def natToDecStr (n : ℕ) : String :=
  if n = 0 then "0" else String.mk (((natDigitsAux n n).reverse).map decDigitChar)

/-! ### `toFixed(2)` model

`((val / total) * 100).toFixed(2)` in the source.  On the non-negative
rational `q`, JS `toFixed(2)` produces the numeral of the integer nearest
to `100·q` (ties toward the larger integer), with two forced decimals. -/

/-- The integer produced by rounding `q` to 2 decimal places,
half away from zero (for `q ≥ 0`): `⌊100·q + 1/2⌋`. -/
def fix2Int (q : ℚ) : ℕ := (Rat.floor (q * 100 + 1/2)).toNat

/-- Model of JavaScript `q.toFixed(2)` for non-negative `q`. -/
def jsToFixed2 (q : ℚ) : String :=
  let n := fix2Int q
  natToDecStr (n / 100) ++ "." ++
    String.mk [decDigitChar (n % 100 / 10), decDigitChar (n % 100 % 10)]

/-! ### `parseFloat` model

`parseFloat` is applied only to the strings this program itself emits:
non-negative fixed-decimal numerals.  We model it on that fragment:
integer part up to the first `'.'`, then the fractional digits. -/

/-- Numeric value of a digit character. -/
def charToDigit (c : Char) : ℕ := c.toNat - 48

/-- Value of a big-endian digit-character list. -/
def decValChars (cs : List Char) : ℕ :=
  cs.foldl (fun a c => a * 10 + charToDigit c) 0

/-- Model of JavaScript `parseFloat` on non-negative fixed-decimal
numerals such as `"33.33"`. -/
def parseFloatQ (s : String) : ℚ :=
  let intPart := s.data.takeWhile (fun c => c ≠ '.')
  let fracPart := (s.data.dropWhile (fun c => c ≠ '.')).drop 1
  (decValChars intPart : ℚ) + (decValChars fracPart : ℚ) / 10 ^ fracPart.length

/-! ### Aggregator (`fetch` handler, lines 185–197) -/

/-- `repos.filter(r => r.language !== null)`. -/
def filterRepos (repos : List GitHubRepo) : List GitHubRepo :=
  repos.filter (fun r => r.language.isSome)

/-- The tally step of
`repos.reduce((acc, r) => acc.set(r.language ?? "", (acc.get(r.language ?? "") ?? 0) + 1), new Map())`. -/
def tallyStep (acc : List (String × ℕ)) (r : GitHubRepo) : List (String × ℕ) :=
  mapSet acc (r.language.getD "") ((mapGet acc (r.language.getD "")).getD 0 + 1)

/-- The `langs` map: occurrence count per primary language of the
filtered repositories. -/
def langsOf (repos : List GitHubRepo) : List (String × ℕ) :=
  (filterRepos repos).foldl tallyStep []

/-- `const total = [...langs.values()].reduce((acc, count) => acc += count, 0)`. -/
def totalOf (repos : List GitHubRepo) : ℕ :=
  ((langsOf repos).map (fun p => p.2)).sum

/-- The `percMap`: for each tallied language, `((val / total) * 100).toFixed(2)`,
inserted in the tally's iteration order. -/
def percMapOf (repos : List GitHubRepo) : List (String × String) :=
  (langsOf repos).foldl
    (fun pm kv =>
      mapSet pm kv.1 (jsToFixed2 ((kv.2 : ℚ) / (totalOf repos : ℚ) * 100))) []

/-! ### Ranking (`generateSvg`, lines 43–45)

`[...percMap.entries()].sort(([, a], [, b]) => parseFloat(b) - parseFloat(a))`:
a stable sort (guaranteed by the ECMAScript specification) placing larger
parsed percentages first.  Any stable sort for the same total preorder
yields the same list; we use insertion sort, which is stable. -/

/-- The sort order of `generateSvg`: `a` precedes `b` when
`parseFloat(b.2) ≤ parseFloat(a.2)` (descending by numeric value). -/
def percDesc (a b : String × String) : Prop :=
  parseFloatQ b.2 ≤ parseFloatQ a.2

instance : DecidableRel percDesc := fun a b =>
  inferInstanceAs (Decidable (parseFloatQ b.2 ≤ parseFloatQ a.2))

instance : IsTotal (String × String) percDesc :=
  ⟨fun a b => le_total (parseFloatQ b.2) (parseFloatQ a.2)⟩

instance : IsTrans (String × String) percDesc :=
  ⟨fun _ _ _ h1 h2 => le_trans h2 h1⟩

/-- The ranked language list: `percMap` entries sorted stably,
descending by parsed percentage. -/
def rankedOf (pm : List (String × String)) : List (String × String) :=
  List.insertionSort percDesc pm

/-- `topLangs`: the ranked list truncated by `.slice(0, count)`. -/
def topLangsOf (pm : List (String × String)) (count : ℕ) : List (String × String) :=
  (rankedOf pm).take count

/-! ### SHA-1 (`crypto.subtle.digest('SHA-1', data)`)

The Web Crypto digest is deterministic; we embed the SHA-1 algorithm
(FIPS 180-1) concretely over naturals, with 32-bit arithmetic as explicit
`% 4294967296`. -/

/-- UTF-8 bytes of one Unicode scalar value (`TextEncoder`). -/
def utf8Bytes (c : Char) : List ℕ :=
  let n := c.toNat
  if n < 128 then [n]
  else if n < 2048 then [192 + n / 64, 128 + n % 64]
  else if n < 65536 then [224 + n / 4096, 128 + n / 64 % 64, 128 + n % 64]
  else [240 + n / 262144, 128 + n / 4096 % 64, 128 + n / 64 % 64, 128 + n % 64]

/-- `new TextEncoder().encode(msg)`: UTF-8 bytes of the string. -/
def utf8Encode (s : String) : List ℕ :=
  (s.data.map utf8Bytes).flatten

/-- Rotate a 32-bit word left by `s` (for `0 < s < 32`). -/
def rotl (s x : ℕ) : ℕ :=
  (x % 4294967296) * 2 ^ s % 4294967296 + x % 4294967296 / 2 ^ (32 - s)

/-- The SHA-1 round function `f_t(b, c, d)`. -/
def sha1F (t b c d : ℕ) : ℕ :=
  if t < 20 then b &&& c ||| ((4294967295 ^^^ b) &&& d)
  else if t < 40 then b ^^^ c ^^^ d
  else if t < 60 then b &&& c ||| b &&& d ||| c &&& d
  else b ^^^ c ^^^ d

/-- The SHA-1 round constant `K_t`. -/
def sha1K (t : ℕ) : ℕ :=
  if t < 20 then 0x5A827999
  else if t < 40 then 0x6ED9EBA1
  else if t < 60 then 0x8F1BBCDC
  else 0xCA62C1D6

/-- SHA-1 padding: append `0x80`, zeros to 56 mod 64, then the bit length
as 8 big-endian bytes. -/
def sha1Pad (msg : List ℕ) : List ℕ :=
  let bitLen := msg.length * 8
  msg ++ [128] ++ List.replicate ((119 - msg.length % 64) % 64) 0 ++
    (List.range 8).map (fun i => bitLen / 2 ^ (8 * (7 - i)) % 256)

/-- The 16 big-endian 32-bit words of one 64-byte chunk. -/
def chunkWords (chunk : List ℕ) : List ℕ :=
  (List.range 16).map (fun i =>
    chunk.getD (4 * i) 0 * 16777216 + chunk.getD (4 * i + 1) 0 * 65536 +
      chunk.getD (4 * i + 2) 0 * 256 + chunk.getD (4 * i + 3) 0)

/-- Extend the message schedule by `n` further words
(`W_t = rotl 1 (W_{t-3} xor W_{t-8} xor W_{t-14} xor W_{t-16})`). -/
def extendW (w : List ℕ) : ℕ → List ℕ
  | 0 => w
  | n + 1 =>
    extendW (w ++ [rotl 1 (w.getD (w.length - 3) 0 ^^^ w.getD (w.length - 8) 0 ^^^
      w.getD (w.length - 14) 0 ^^^ w.getD (w.length - 16) 0)]) n

/-- The running hash value `(h0, h1, h2, h3, h4)`. -/
structure Sha1State where
  h0 : ℕ
  h1 : ℕ
  h2 : ℕ
  h3 : ℕ
  h4 : ℕ
deriving DecidableEq, Repr

/-- One SHA-1 round on the working state `(a, b, c, d, e)` with round
index `t` and schedule word `w`. -/
def sha1Round (st : ℕ × ℕ × ℕ × ℕ × ℕ) (tw : ℕ × ℕ) : ℕ × ℕ × ℕ × ℕ × ℕ :=
  ((rotl 5 st.1 + sha1F tw.1 st.2.1 st.2.2.1 st.2.2.2.1 + st.2.2.2.2 +
      sha1K tw.1 + tw.2) % 4294967296,
    st.1, rotl 30 st.2.1, st.2.2.1, st.2.2.2.1)

/-- Process one 64-byte chunk: 80 rounds, then add into the hash value. -/
def sha1Compress (H : Sha1State) (chunk : List ℕ) : Sha1State :=
  let w := extendW (chunkWords chunk) 64
  let fin := w.enum.foldl sha1Round (H.h0, H.h1, H.h2, H.h3, H.h4)
  ⟨(H.h0 + fin.1) % 4294967296, (H.h1 + fin.2.1) % 4294967296,
    (H.h2 + fin.2.2.1) % 4294967296, (H.h3 + fin.2.2.2.1) % 4294967296,
    (H.h4 + fin.2.2.2.2) % 4294967296⟩

/-- Big-endian bytes of a 32-bit word. -/
def wordBytes (x : ℕ) : List ℕ :=
  [x / 16777216 % 256, x / 65536 % 256, x / 256 % 256, x % 256]

/-- The 20-byte SHA-1 digest of a byte sequence. -/
def sha1Bytes (msg : List ℕ) : List ℕ :=
  let padded := sha1Pad msg
  let chunks := (List.range (padded.length / 64)).map
    (fun i => (padded.drop (64 * i)).take 64)
  let H := chunks.foldl sha1Compress
    ⟨0x67452301, 0xEFCDAB89, 0x98BADCFE, 0x10325476, 0xC3D2E1F0⟩
  wordBytes H.h0 ++ wordBytes H.h1 ++ wordBytes H.h2 ++ wordBytes H.h3 ++
    wordBytes H.h4

/-! ### Hex encoding of the digest (`sha1Hash`, lines 137–152) -/

/-- Hex digit to its lowercase character (JS `toString(16)` is lowercase). -/
def hexDigitChar (d : ℕ) : Char :=
  if d < 10 then Char.ofNat (48 + d) else Char.ofNat (87 + d)

/-- Little-endian base-16 digits with fuel, like `natDigitsAux`. -/
def natHexAux : ℕ → ℕ → List ℕ
  | 0, _ => []
  | _ + 1, 0 => []
  | fuel + 1, n + 1 => (n + 1) % 16 :: natHexAux fuel ((n + 1) / 16)

/-- Model of JavaScript `b.toString(16)` for a natural number. -/
def natToHexChars (n : ℕ) : List Char :=
  if n = 0 then ['0'] else ((natHexAux n n).reverse).map hexDigitChar

/-- Model of `.padStart(2, '0')`. -/
def padStart2 (l : List Char) : List Char :=
  List.replicate (2 - l.length) '0' ++ l

/-- `b.toString(16).padStart(2, '0')`: two hex characters per byte. -/
def byteHexChars (b : ℕ) : List Char :=
  padStart2 (natToHexChars b)

/-- `sha1Hash` as a character list: hex-encode each digest byte and join. -/
def sha1HashChars (msg : String) : List Char :=
  ((sha1Bytes (utf8Encode msg)).map byteHexChars).flatten

/-- `sha1Hash(msg)`: the 40-character lowercase hex SHA-1 digest of the
UTF-8 encoding of `msg`. -/
def sha1Hash (msg : String) : String :=
  String.mk (sha1HashChars msg)

/-- `stringToHexColor(str)`: `` `#${fullHash.slice(0, 6)}` ``. -/
def stringToHexColor (s : String) : String :=
  String.mk ('#' :: (sha1HashChars s).take 6)

/-- Ambient per-invocation state a Worker isolate could in principle
carry (instance identity, request counter).  `stringToHexColor` closes
over no mutable state and `crypto.subtle.digest('SHA-1', ·)` is a
deterministic digest, so an invocation in any such context computes the
same pure function of the language name. -/
structure ProcessInstance where
  instanceId : ℕ
  requestCounter : ℕ

/-- An invocation of the color computation inside a given process
instance: it reads nothing from the ambient state. -/
def stringToHexColorInvoke (_p : ProcessInstance) (s : String) : String :=
  stringToHexColor s

/-! ### Renderer (`generateSvg`, lines 42–135)

The template literals of the source, with `${...}` splices made explicit
concatenations.  Literal braces of the CSS are written `\x7b`/`\x7d`. -/

/-- One language row of the badge (the template inside
`topLangs.map`); the row's color is `stringToHexColor(lang)`. -/
def langItemRow (lang perc : String) (index : ℕ) : String :=
  let color := stringToHexColor lang
  "
      <g transform=\"translate(0, " ++ natToDecStr (index * 40) ++ ")\">
        <g>
          <text data-testid=\"lang-name\" x=\"2\" y=\"15\" class=\"lang-name\">" ++ lang ++ "</text>
          <text x=\"215\" y=\"34\" class=\"lang-name\">" ++ perc ++ "%</text>
          <svg width=\"205\" x=\"0\" y=\"25\">
            <rect rx=\"5\" ry=\"5\" x=\"0\" y=\"0\" width=\"205\" height=\"8\" fill=\"#ddd\"></rect>
            <svg width=\"" ++ perc ++ "%\">
              <rect
                  height=\"8\"
                  fill=\"" ++ color ++ "\"
                  rx=\"5\" ry=\"5\" x=\"0\" y=\"0\"
                  width=\"100%\"
                  class=\"lang-progress\"
              />
            </svg>
          </svg>
        </g>
      </g>
    "

/-- The outer SVG document template (the final template literal of
`generateSvg`). -/
def svgFrame (height : ℕ) (langItems : String) : String :=
  "
<svg
  width=\"300\"
  height=\"" ++ natToDecStr height ++ "\"
  viewBox=\"0 0 300 " ++ natToDecStr height ++ "\"
  fill=\"none\"
  xmlns=\"http://www.w3.org/2000/svg\"
  role=\"img\"
  aria-labelledby=\"descId\"
>
  <title id=\"titleId\">Top Languages</title>
  <desc id=\"descId\">Top languages by main repo language</desc>
  <style>
    .header \x7b
      font: 600 20px Verdana, Sans-Serif;
      fill:rgb(3, 38, 83);
    \x7d
    @supports(-moz-appearance: auto) \x7b
      /* Selector detects Firefox */
      .header \x7b font-size: 15.5px; \x7d
    \x7d
    .stat \x7b
      font: 600 14px Verdana, Sans-Serif; fill: #434d58;
    \x7d
    @supports(-moz-appearance: auto) \x7b
      /* Selector detects Firefox */
      .stat \x7b font-size:12px; \x7d
    \x7d
    .bold \x7b font-weight: 700 \x7d
    .lang-name \x7b
      font: 400 11px Verdana, Sans-Serif;
      fill: #434d58;
    \x7d
  </style>

  <rect
    data-testid=\"card-bg\"
    x=\"0.5\"
    y=\"0.5\"
    rx=\"4.5\"
    height=\"99%\"
    stroke=\"#e4e2e2\"
    width=\"299\"
    fill=\"#fffefe\"
    stroke-opacity=\"1\"
  />

  <g data-testid=\"card-title\" transform=\"translate(25, 35)\">
    <g transform=\"translate(0, 0)\">
      <text x=\"0\" y=\"0\" class=\"header\" data-testid=\"header\">Top Languages</text>
    </g>
  </g>

  <g data-testid=\"main-card-body\" transform=\"translate(0, 55)\">
    <svg data-testid=\"lang-items\" x=\"25\">
      " ++ langItems ++ "
    </svg>
  </g>
</svg>
    "

/-- `generateSvg(percMap, count)`: sort the entries descending by parsed
percentage (stably), truncate to `count`, render one row per retained
entry at vertical offset `index * 40`, and wrap in the document frame
with `height = 55 + topLangs.length * 40 + 30`. -/
def generateSvg (percMap : List (String × String)) (count : ℕ) : String :=
  let topLangs := topLangsOf percMap count
  let listHeight := topLangs.length * 40
  let height := 55 + listHeight + 30
  let langItems := String.join (topLangs.enum.map
    (fun ip => langItemRow ip.2.1 ip.2.2 ip.1))
  svgFrame height langItems

/-! ### The `top` query parameter (`fetch` handler, lines 199–200) -/

/-- The longest leading digit run of a character list, as a number;
`none` when there is no leading digit (JS `parseInt` yields `NaN`). -/
def parseDigitRun (cs : List Char) : Option ℕ :=
  let ds := cs.takeWhile (fun c => c.isDigit)
  if ds.isEmpty then none else some (decValChars ds)

/-- Model of JavaScript `parseInt(s, 10)`: skip leading whitespace, an
optional sign, then the longest digit run; `NaN` becomes `none`. -/
def jsParseInt10 (s : String) : Option ℤ :=
  match s.data.dropWhile (fun c => c.isWhitespace) with
  | '-' :: rest => (parseDigitRun rest).map (fun n => -(n : ℤ))
  | '+' :: rest => (parseDigitRun rest).map (fun n => (n : ℤ))
  | rest => (parseDigitRun rest).map (fun n => (n : ℤ))

/-- `const count = (top && parseInt(top, 10) > 0) ? parseInt(top, 10) : 5;`
with `top = url.searchParams.get("top")` (`null` when missing, and the
empty string is falsy). -/
def countOf (top : Option String) : ℕ :=
  match top with
  | none => 5
  | some s =>
    if s = "" then 5
    else
      match jsParseInt10 s with
      | some n => if 0 < n then n.toNat else 5
      | none => 5

/-! ### The worker request handler (`fetch`, lines 180–226)

Routing (method gating, CORS, username extraction) is the excluded
collaborator layer; the upstream HTTP response is abstracted as a record.
We embed the `try`/`catch` core: a non-ok upstream response makes
`fetchGitHubRepos` throw, which the `catch` turns into the structured
error response; otherwise aggregation and rendering run. -/

/-- The upstream repository-listing HTTP response, as the handler
observes it (`ok`, `status`, `statusText`, parsed JSON body). -/
structure UpstreamResponse where
  ok : Bool
  status : ℕ
  statusText : String
  body : List GitHubRepo

/-- `fetchGitHubRepos`: throws `` `GitHub API error: ${status} ${statusText}` ``
when the response is not ok, otherwise returns the parsed repository
list. -/
def fetchGitHubRepos (response : UpstreamResponse) : Except String (List GitHubRepo) :=
  if !response.ok then
    Except.error ("GitHub API error: " ++ natToDecStr response.status ++ " " ++
      response.statusText)
  else
    Except.ok response.body

/-- The worker's response: either the rendered SVG (HTTP 200,
`image/svg+xml`) or the JSON error body of the `catch` block
(HTTP 500, fields `error` and `message`). -/
inductive WorkerResult where
  | svg (body : String)
  | errorResp (error : String) (message : String)
deriving DecidableEq

/-- The `try`/`catch` core of the `fetch` handler: filter, tally,
percentages, `top` parsing, rendering; any thrown error becomes the
structured JSON error response. -/
def workerFetch (response : UpstreamResponse) (top : Option String) : WorkerResult :=
  match fetchGitHubRepos response with
  | Except.error e => WorkerResult.errorResp "Failed to fetch repository data" e
  | Except.ok repos => WorkerResult.svg (generateSvg (percMapOf repos) (countOf top))

/-! ### Concrete inputs used by the claims -/

/-- The reference repository list: primary languages TypeScript,
TypeScript, JavaScript, Python, Python, Python, and one absent. -/
def referenceRepos : List GitHubRepo :=
  [⟨1, "repo1", "user/repo1", 1, some "TypeScript"⟩,
   ⟨2, "repo2", "user/repo2", 1, some "TypeScript"⟩,
   ⟨3, "repo3", "user/repo3", 1, some "JavaScript"⟩,
   ⟨4, "repo4", "user/repo4", 1, some "Python"⟩,
   ⟨5, "repo5", "user/repo5", 1, some "Python"⟩,
   ⟨6, "repo6", "user/repo6", 1, some "Python"⟩,
   ⟨7, "repo7", "user/repo7", 1, none⟩]

/-- Two repositories with distinct languages `A` and `B`, in that order:
the tally is `{A: 1, B: 1}` and both percentages tie at `50.00`. -/
def tieRepos : List GitHubRepo :=
  [⟨1, "r1", "u/r1", 0, some "A"⟩, ⟨2, "r2", "u/r2", 0, some "B"⟩]

/-- A single repository whose primary language is present but empty. -/
def emptyLangRepos : List GitHubRepo :=
  [⟨1, "r1", "u/r1", 0, some ""⟩]

/-! ### Substring containment

Used to state what the rendered document does and does not contain. -/

/-- `containsSub hay needle = true` iff `needle` occurs contiguously in
`hay`. -/
def containsSub (hay needle : List Char) : Bool :=
  match hay with
  | [] => needle.isPrefixOf ([] : List Char)
  | c :: rest => needle.isPrefixOf (c :: rest) || containsSub rest needle

/-- Lowercase hexadecimal digit characters `0-9a-f`. -/
def isHexLower (c : Char) : Bool :=
  decide ((48 ≤ c.toNat ∧ c.toNat ≤ 57) ∨ (97 ≤ c.toNat ∧ c.toNat ≤ 102))

/-- The document rendered when no language rows remain: zero rows, so
`height = 55 + 0 * 40 + 30 = 85` and an empty item list. -/
def emptyChart : String := svgFrame 85 ""

/-! ## Lemmas: decimal numerals -/

theorem natDigitsAux_zero (fuel : ℕ) : natDigitsAux fuel 0 = [] := by
  cases fuel <;> rfl

theorem natDigitsAux_lt : ∀ (fuel n : ℕ), ∀ d ∈ natDigitsAux fuel n, d < 10 := by
  intro fuel
  induction fuel with
  | zero => intro n d hd; simp [natDigitsAux] at hd
  | succ f ih =>
    intro n d hd
    cases n with
    | zero => simp [natDigitsAux] at hd
    | succ m =>
      simp only [natDigitsAux, List.mem_cons] at hd
      rcases hd with h | h
      · subst h; exact Nat.mod_lt _ (by norm_num)
      · exact ih _ _ h

theorem charToDigit_decDigitChar : ∀ d < 10, charToDigit (decDigitChar d) = d := by
  decide

theorem decDigitChar_range : ∀ d < 10,
    48 ≤ (decDigitChar d).toNat ∧ (decDigitChar d).toNat ≤ 57 := by
  decide

theorem decValChars_append_singleton (A : List Char) (c : Char) :
    decValChars (A ++ [c]) = decValChars A * 10 + charToDigit c := by
  simp [decValChars, List.foldl_append]

theorem decValChars_digits : ∀ (fuel n : ℕ), n ≤ fuel →
    decValChars (((natDigitsAux fuel n).reverse).map decDigitChar) = n := by
  intro fuel
  induction fuel with
  | zero =>
    intro n hn
    interval_cases n
    simp [natDigitsAux, decValChars]
  | succ f ih =>
    intro n hn
    cases n with
    | zero => simp [natDigitsAux_zero, decValChars]
    | succ m =>
      have hdiv : (m + 1) / 10 ≤ f := by
        have : (m + 1) / 10 < m + 1 := Nat.div_lt_self (by omega) (by norm_num)
        omega
      have hmod : (m + 1) % 10 < 10 := Nat.mod_lt _ (by norm_num)
      simp only [natDigitsAux, List.reverse_cons, List.map_append, List.map_cons,
        List.map_nil, decValChars_append_singleton, ih _ hdiv,
        charToDigit_decDigitChar _ hmod]
      omega

theorem data_natToDecStr_range (n : ℕ) :
    ∀ c ∈ (natToDecStr n).data, 48 ≤ c.toNat ∧ c.toNat ≤ 57 := by
  intro c hc
  unfold natToDecStr at hc
  split at hc
  · simp only [show ("0" : String).data = ['0'] from rfl, List.mem_singleton] at hc
    subst hc; decide
  · simp only [String.mk, List.mem_map] at hc
    obtain ⟨d, hd, rfl⟩ := hc
    exact decDigitChar_range d (natDigitsAux_lt n n d (List.mem_reverse.mp hd))

theorem decValChars_natToDecStr (n : ℕ) :
    decValChars (natToDecStr n).data = n := by
  unfold natToDecStr
  split
  · subst_vars; decide
  · exact decValChars_digits n n le_rfl

/-! ## Lemmas: `parseFloat ∘ toFixed(2)` -/

theorem takeWhile_middle {p : Char → Bool} :
    ∀ (A : List Char) (d : Char) (B : List Char), (∀ c ∈ A, p c = true) → p d = false →
      (A ++ d :: B).takeWhile p = A ∧ (A ++ d :: B).dropWhile p = d :: B := by
  intro A d B hA hd
  induction A with
  | nil => simp [List.takeWhile, List.dropWhile, hd]
  | cons a A ih =>
    have ha : p a = true := hA a (by simp)
    obtain ⟨h1, h2⟩ := ih (fun c hc => hA c (by simp [hc]))
    constructor
    · simpa [List.takeWhile_cons, ha] using h1
    · simpa [List.dropWhile_cons, ha] using h2

/-- Parsing back the emitted 2-decimal numeral recovers exactly the
rounded rational `fix2Int q / 100`. -/
theorem parseFloatQ_jsToFixed2 (q : ℚ) :
    parseFloatQ (jsToFixed2 q) = (fix2Int q : ℚ) / 100 := by
  have hdata : (jsToFixed2 q).data = (natToDecStr (fix2Int q / 100)).data ++
      '.' :: [decDigitChar (fix2Int q % 100 / 10), decDigitChar (fix2Int q % 100 % 10)] := by
    have happ : ∀ s t : String, (s ++ t).data = s.data ++ t.data := fun _ _ => rfl
    simp only [jsToFixed2, happ, List.append_assoc]
    rfl
  have hall : ∀ c ∈ (natToDecStr (fix2Int q / 100)).data,
      (fun c => decide (c ≠ '.')) c = true := by
    intro c hc
    have hr := data_natToDecStr_range _ c hc
    simp only [decide_eq_true_eq]
    intro h
    rw [h] at hr
    simp at hr
  obtain ⟨htake, hdrop⟩ := takeWhile_middle (natToDecStr (fix2Int q / 100)).data '.'
    [decDigitChar (fix2Int q % 100 / 10), decDigitChar (fix2Int q % 100 % 10)] hall
    (by simp)
  have hd1 : fix2Int q % 100 / 10 < 10 := by
    have : fix2Int q % 100 < 100 := Nat.mod_lt _ (by norm_num)
    omega
  have hd2 : fix2Int q % 100 % 10 < 10 := Nat.mod_lt _ (by norm_num)
  have hfrac : decValChars [decDigitChar (fix2Int q % 100 / 10),
      decDigitChar (fix2Int q % 100 % 10)] = fix2Int q % 100 := by
    unfold decValChars
    simp only [List.foldl_cons, List.foldl_nil,
      charToDigit_decDigitChar _ hd1, charToDigit_decDigitChar _ hd2]
    omega
  unfold parseFloatQ
  rw [hdata, htake, hdrop]
  simp only [List.drop_one, List.tail_cons, decValChars_natToDecStr, hfrac,
    List.length_cons, List.length_nil]
  set n := fix2Int q with hn
  set A := n / 100 with hA
  set B := n % 100 with hB
  have hsplit : 100 * A + B = n := by
    rw [hA, hB]
    exact Nat.div_add_mod n 100
  rw [← hsplit]
  push_cast
  ring

/-- The executable `Rat.floor` agrees with the `Int.floor` of the
`FloorRing` structure. -/
theorem ratFloor_eq_intFloor (r : ℚ) : Rat.floor r = Int.floor r :=
  (Rat.floor_def' r).trans Rat.floor_def.symm

/-- The rounding error of one formatted percentage is at most `1/200`. -/
theorem fix2Int_close (q : ℚ) (hq : 0 ≤ q) :
    |(fix2Int q : ℚ) / 100 - q| ≤ 1 / 200 := by
  have hx : (0 : ℚ) ≤ q * 100 + 1 / 2 := by positivity
  have hfl : (0 : ℤ) ≤ Int.floor (q * 100 + 1 / 2) := Int.floor_nonneg.mpr hx
  have hcast : ((fix2Int q : ℕ) : ℚ) = ((Int.floor (q * 100 + 1 / 2) : ℤ) : ℚ) := by
    unfold fix2Int
    rw [ratFloor_eq_intFloor]
    exact_mod_cast congrArg (fun z : ℤ => (z : ℚ)) (Int.toNat_of_nonneg hfl)
  have h1 : ((Int.floor (q * 100 + 1 / 2) : ℤ) : ℚ) ≤ q * 100 + 1 / 2 :=
    Int.floor_le _
  have h2 : q * 100 + 1 / 2 - 1 < ((Int.floor (q * 100 + 1 / 2) : ℤ) : ℚ) :=
    Int.sub_one_lt_floor _
  rw [hcast, abs_le]
  constructor <;> linarith

/-! ## Lemmas: the `Map` model and the tally -/

theorem find?_eq_none_of_not_mem_keys {α : Type} {m : List (String × α)} {k : String}
    (h : k ∉ m.map Prod.fst) : m.find? (fun p => p.1 == k) = none := by
  apply List.find?_eq_none.mpr
  intro p hp hpe
  exact h (List.mem_map.mpr ⟨p, hp, by simpa using hpe⟩)

theorem mapSet_of_fresh {α : Type} {m : List (String × α)} {k : String} {v : α}
    (h : k ∉ m.map Prod.fst) : mapSet m k v = m ++ [(k, v)] := by
  unfold mapSet
  rw [find?_eq_none_of_not_mem_keys h]
  simp

theorem keys_mapSet_update {α : Type} {m : List (String × α)} {k : String} {v : α}
    (h : (m.find? (fun p => p.1 == k)).isSome = true) :
    (mapSet m k v).map Prod.fst = m.map Prod.fst := by
  unfold mapSet
  rw [if_pos h, List.map_map]
  apply List.map_congr_left
  intro p _
  by_cases hpk : (p.1 == k) = true
  · simp only [Function.comp_apply, if_pos hpk]
    exact (beq_iff_eq.mp hpk).symm
  · have hne : p.1 ≠ k := by simpa using hpk
    simp [Function.comp_apply, hne]

theorem nodup_keys_mapSet {α : Type} {m : List (String × α)} {k : String} {v : α}
    (h : (m.map Prod.fst).Nodup) : ((mapSet m k v).map Prod.fst).Nodup := by
  by_cases hs : (m.find? (fun p => p.1 == k)).isSome = true
  · rw [keys_mapSet_update hs]
    exact h
  · have hk : k ∉ m.map Prod.fst := by
      intro hmem
      obtain ⟨p, hp, rfl⟩ := List.mem_map.mp hmem
      exact hs (List.find?_isSome.mpr ⟨p, hp, by simp⟩)
    rw [mapSet_of_fresh hk]
    simp only [List.map_append, List.map_cons, List.map_nil]
    rw [List.nodup_append]
    exact ⟨h, List.nodup_singleton k, fun a ha hb => by
      simp only [List.mem_singleton] at hb
      exact hk (hb ▸ ha)⟩

theorem mem_mapSet {α : Type} {m : List (String × α)} {k : String} {v : α} {kv : String × α}
    (h : kv ∈ mapSet m k v) : kv ∈ m ∨ kv = (k, v) := by
  unfold mapSet at h
  split at h
  · obtain ⟨p, hp, rfl⟩ := List.mem_map.mp h
    by_cases hpk : (p.1 == k) = true
    · right
      simp [hpk]
    · left
      simpa [hpk] using hp
  · rcases List.mem_append.mp h with h | h
    · exact Or.inl h
    · right
      simpa using h

theorem keys_mapSet_cases {α : Type} {m : List (String × α)} {k a : String} {v : α}
    (h : a ∈ (mapSet m k v).map Prod.fst) : a ∈ m.map Prod.fst ∨ a = k := by
  obtain ⟨p, hp, rfl⟩ := List.mem_map.mp h
  rcases mem_mapSet hp with h2 | h2
  · exact Or.inl (List.mem_map_of_mem _ h2)
  · right
    rw [h2]

theorem mapSet_ne_nil {α : Type} (m : List (String × α)) (k : String) (v : α) :
    mapSet m k v ≠ [] := by
  unfold mapSet
  split
  · rename_i hs
    intro h
    rw [List.map_eq_nil_iff] at h
    subst h
    simp [List.find?] at hs
  · simp

theorem tallyStep_ne_nil (acc : List (String × ℕ)) (r : GitHubRepo) :
    tallyStep acc r ≠ [] :=
  mapSet_ne_nil _ _ _

theorem foldl_tallyStep_ne_nil :
    ∀ (l : List GitHubRepo) (acc : List (String × ℕ)),
      acc ≠ [] ∨ l ≠ [] → l.foldl tallyStep acc ≠ [] := by
  intro l
  induction l with
  | nil =>
    intro acc h
    rcases h with h | h
    · simpa using h
    · simp at h
  | cons r rest ih =>
    intro acc _
    simp only [List.foldl_cons]
    exact ih _ (Or.inl (tallyStep_ne_nil acc r))

theorem langsOf_ne_nil {repos : List GitHubRepo}
    (h : ∃ r ∈ repos, r.language.isSome = true) : langsOf repos ≠ [] := by
  obtain ⟨r, hr, hl⟩ := h
  have hmem : r ∈ filterRepos repos := List.mem_filter.mpr ⟨hr, hl⟩
  exact foldl_tallyStep_ne_nil _ _ (Or.inr (List.ne_nil_of_mem hmem))

theorem tally_values_pos :
    ∀ (l : List GitHubRepo) (acc : List (String × ℕ)),
      (∀ kv ∈ acc, 1 ≤ kv.2) → ∀ kv ∈ l.foldl tallyStep acc, 1 ≤ kv.2 := by
  intro l
  induction l with
  | nil =>
    intro acc h kv hkv
    exact h kv (by simpa using hkv)
  | cons r rest ih =>
    intro acc h kv hkv
    simp only [List.foldl_cons] at hkv
    refine ih _ ?_ kv hkv
    intro kv2 hkv2
    unfold tallyStep at hkv2
    rcases mem_mapSet hkv2 with h2 | h2
    · exact h kv2 h2
    · rw [h2]
      simp

theorem langsOf_values_pos {repos : List GitHubRepo} :
    ∀ kv ∈ langsOf repos, 1 ≤ kv.2 :=
  tally_values_pos _ [] (by simp)

theorem totalOf_pos {repos : List GitHubRepo}
    (h : ∃ r ∈ repos, r.language.isSome = true) : 1 ≤ totalOf repos := by
  obtain ⟨kv, hkv⟩ := List.exists_mem_of_ne_nil (langsOf repos) (langsOf_ne_nil h)
  calc 1 ≤ kv.2 := langsOf_values_pos kv hkv
    _ ≤ totalOf repos := List.le_sum_of_mem (List.mem_map_of_mem _ hkv)

theorem tally_nodup_keys :
    ∀ (l : List GitHubRepo) (acc : List (String × ℕ)),
      (acc.map Prod.fst).Nodup → ((l.foldl tallyStep acc).map Prod.fst).Nodup := by
  intro l
  induction l with
  | nil =>
    intro acc h
    simpa using h
  | cons r rest ih =>
    intro acc h
    simp only [List.foldl_cons]
    exact ih _ (nodup_keys_mapSet h)

theorem langsOf_nodup_keys (repos : List GitHubRepo) :
    ((langsOf repos).map Prod.fst).Nodup :=
  tally_nodup_keys _ [] (by simp)

theorem foldl_mapSet_map (f : String × ℕ → String) :
    ∀ (l : List (String × ℕ)) (pm : List (String × String)),
      (pm.map Prod.fst ++ l.map Prod.fst).Nodup →
      l.foldl (fun pm kv => mapSet pm kv.1 (f kv)) pm =
        pm ++ l.map (fun kv => (kv.1, f kv)) := by
  intro l
  induction l with
  | nil =>
    intro pm _
    simp
  | cons kv rest ih =>
    intro pm h
    have hk : kv.1 ∉ pm.map Prod.fst := by
      intro hmem
      obtain ⟨_, _, hdisj⟩ := List.nodup_append.mp h
      exact hdisj hmem (by simp)
    simp only [List.foldl_cons]
    rw [mapSet_of_fresh hk, ih (pm ++ [(kv.1, f kv)]) ?_]
    · simp
    · simp only [List.map_append, List.map_cons, List.map_nil, List.append_assoc,
        List.singleton_append]
      simpa using h

theorem percMapOf_eq_map (repos : List GitHubRepo) :
    percMapOf repos = (langsOf repos).map
      (fun kv => (kv.1, jsToFixed2 ((kv.2 : ℚ) / (totalOf repos : ℚ) * 100))) := by
  unfold percMapOf
  rw [foldl_mapSet_map _ _ [] (by simpa using langsOf_nodup_keys repos)]
  simp

/-! ## Lemmas: sums -/

theorem sum_map_sub_abs_le {α : Type} :
    ∀ (l : List α) (f g : α → ℚ) (c : ℚ), (∀ x ∈ l, |f x - g x| ≤ c) →
      |(l.map f).sum - (l.map g).sum| ≤ l.length * c := by
  intro l f g c
  induction l with
  | nil =>
    intro _
    simp
  | cons a rest ih =>
    intro h
    have h1 := h a (by simp)
    have h2 := ih (fun x hx => h x (by simp [hx]))
    simp only [List.map_cons, List.sum_cons, List.length_cons]
    push_cast
    calc |f a + (rest.map f).sum - (g a + (rest.map g).sum)|
        = |(f a - g a) + ((rest.map f).sum - (rest.map g).sum)| := by ring_nf
      _ ≤ |f a - g a| + |(rest.map f).sum - (rest.map g).sum| := abs_add _ _
      _ ≤ c + rest.length * c := add_le_add h1 h2
      _ = (rest.length + 1) * c := by ring

/-! ## Lemmas: stability of the percentage sort -/

theorem filter_orderedInsert_parse (v : ℚ) (x : String × String) :
    ∀ s : List (String × String),
      (List.orderedInsert percDesc x s).filter (fun kv => decide (parseFloatQ kv.2 = v)) =
        if parseFloatQ x.2 = v
        then x :: s.filter (fun kv => decide (parseFloatQ kv.2 = v))
        else s.filter (fun kv => decide (parseFloatQ kv.2 = v)) := by
  intro s
  induction s with
  | nil =>
    by_cases hx : parseFloatQ x.2 = v <;> simp [List.orderedInsert, hx]
  | cons b l ih =>
    simp only [List.orderedInsert]
    by_cases hxb : percDesc x b
    · rw [if_pos hxb]
      by_cases hx : parseFloatQ x.2 = v <;> simp [List.filter_cons, hx]
    · rw [if_neg hxb]
      have hlt : parseFloatQ x.2 < parseFloatQ b.2 := not_le.mp hxb
      by_cases hx : parseFloatQ x.2 = v
      · have hbv : ¬ parseFloatQ b.2 = v := by
          intro he
          rw [hx] at hlt
          rw [he] at hlt
          exact lt_irrefl v hlt
        simp only [List.filter_cons, ih, if_pos hx]
        simp [hbv]
      · simp only [List.filter_cons, ih, if_neg hx]

theorem filter_insertionSort_parse (v : ℚ) :
    ∀ l : List (String × String),
      (List.insertionSort percDesc l).filter (fun kv => decide (parseFloatQ kv.2 = v)) =
        l.filter (fun kv => decide (parseFloatQ kv.2 = v)) := by
  intro l
  induction l with
  | nil => rfl
  | cons x l ih =>
    simp only [List.insertionSort]
    rw [filter_orderedInsert_parse, ih]
    by_cases hx : parseFloatQ x.2 = v <;> simp [List.filter_cons, hx]

/-! ## The claims -/

unseal Rat.mul Rat.add Rat.inv Rat.sub in
/-- C1: for the reference input (primary languages TypeScript, TypeScript,
JavaScript, Python, Python, Python, and one absent), aggregation followed
by ranking yields exactly Python `"50.00"`, TypeScript `"33.33"`,
JavaScript `"16.67"`, in that order. -/
theorem referenceRepos_shares :
    rankedOf (percMapOf referenceRepos) =
      [("Python", "50.00"), ("TypeScript", "33.33"), ("JavaScript", "16.67")] := by
  decide

/-- C2: for every input with at least one present primary language, the
emitted percentage strings, parsed back as numbers, sum to `100` within
`0.01` per distinct language. -/
theorem percMap_sum_close_to_100 (repos : List GitHubRepo)
    (h : ∃ r ∈ repos, r.language.isSome = true) :
    |((percMapOf repos).map (fun kv => parseFloatQ kv.2)).sum - 100| ≤
      ((percMapOf repos).length : ℚ) * (1 / 100) := by
  have hT : 1 ≤ totalOf repos := totalOf_pos h
  have hTpos : (0 : ℚ) < (totalOf repos : ℚ) := by exact_mod_cast hT
  rw [percMapOf_eq_map]
  have hmap : ((langsOf repos).map
        (fun kv => (kv.1, jsToFixed2 ((kv.2 : ℚ) / (totalOf repos : ℚ) * 100)))).map
        (fun kv => parseFloatQ kv.2) =
      (langsOf repos).map
        (fun kv => (fix2Int ((kv.2 : ℚ) / (totalOf repos : ℚ) * 100) : ℚ) / 100) := by
    rw [List.map_map]
    apply List.map_congr_left
    intro kv _
    exact parseFloatQ_jsToFixed2 _
  rw [hmap, List.length_map]
  have hg : ((langsOf repos).map
      (fun kv => (kv.2 : ℚ) / (totalOf repos : ℚ) * 100)).sum = 100 := by
    have h1 : (langsOf repos).map (fun kv => (kv.2 : ℚ) / (totalOf repos : ℚ) * 100) =
        (langsOf repos).map (fun kv => (kv.2 : ℚ) * (100 / (totalOf repos : ℚ))) := by
      apply List.map_congr_left
      intro kv _
      ring
    rw [h1, List.sum_map_mul_right]
    have hsum : ((langsOf repos).map (fun kv => ((kv.2 : ℕ) : ℚ))).sum =
        ((totalOf repos : ℕ) : ℚ) := by
      unfold totalOf
      rw [Nat.cast_list_sum, List.map_map]
      rfl
    rw [hsum]
    field_simp
  have hb : ∀ kv ∈ langsOf repos,
      |(fix2Int ((kv.2 : ℚ) / (totalOf repos : ℚ) * 100) : ℚ) / 100 -
        (kv.2 : ℚ) / (totalOf repos : ℚ) * 100| ≤ 1 / 200 := by
    intro kv _
    apply fix2Int_close
    positivity
  have hmain := sum_map_sub_abs_le (langsOf repos) _ _ (1 / 200) hb
  rw [hg] at hmain
  have hlen : (0 : ℚ) ≤ ((langsOf repos).length : ℚ) := Nat.cast_nonneg _
  linarith

/-- C2 witness: the theorem applied to the concrete reference input. -/
theorem percMap_sum_close_to_100_witness :
    (∃ r ∈ referenceRepos, r.language.isSome = true) ∧
    |((percMapOf referenceRepos).map (fun kv => parseFloatQ kv.2)).sum - 100| ≤
      ((percMapOf referenceRepos).length : ℚ) * (1 / 100) :=
  ⟨by decide, percMap_sum_close_to_100 referenceRepos (by decide)⟩

unseal Rat.mul Rat.add Rat.inv Rat.sub in
/-- C3: the ranked list is sorted descending by the numeric (parsed)
percentage value, the sort is stable (for each numeric value, the entries
carrying it keep their original relative order), and on the concrete tie
input `{A: 1, B: 1}` (inserted in that order) the rank order is `[A, B]`. -/
theorem ranked_sorted_desc_and_stable :
    (∀ pm : List (String × String),
      (rankedOf pm).Pairwise (fun a b => parseFloatQ b.2 ≤ parseFloatQ a.2) ∧
      ∀ v : ℚ, (rankedOf pm).filter (fun kv => decide (parseFloatQ kv.2 = v)) =
        pm.filter (fun kv => decide (parseFloatQ kv.2 = v))) ∧
    rankedOf (percMapOf tieRepos) = [("A", "50.00"), ("B", "50.00")] := by
  refine ⟨fun pm => ⟨?_, fun v => filter_insertionSort_parse v pm⟩, by decide⟩
  exact List.sorted_insertionSort percDesc pm

/-- C6: the `top` query parameter is parsed with `parseInt(·, 10)`; a
parse yielding a positive integer is used as the display count, and a
missing parameter, a failed parse, or a non-positive parse all fall back
to the default of `5`. -/
theorem top_param_fallback (t : Option String) :
    (t = none → countOf t = 5) ∧
    (∀ s n, t = some s → jsParseInt10 s = some n → 0 < n → countOf t = n.toNat) ∧
    (∀ s, t = some s →
      jsParseInt10 s = none ∨ (∃ n, jsParseInt10 s = some n ∧ n ≤ 0) →
      countOf t = 5) := by
  refine ⟨?_, ?_, ?_⟩
  · intro h
    subst h
    rfl
  · intro s n hs hp hn
    subst hs
    have hse : s ≠ "" := by
      intro he
      subst he
      rw [show jsParseInt10 "" = none from rfl] at hp
      exact Option.noConfusion hp
    simp [countOf, hse, hp, hn]
  · intro s hs hd
    subst hs
    by_cases hse : s = ""
    · simp [countOf, hse]
    · rcases hd with hnone | ⟨n, hp, hn⟩
      · simp [countOf, hse, hnone]
      · simp [countOf, hse, hp, not_lt.mpr hn]

/-- C6 witness: a positive value `"7"` is used, while `"-3"` and a
missing parameter fall back to `5`. -/
theorem top_param_fallback_witness :
    countOf (some "7") = (7 : ℤ).toNat ∧ countOf (some "-3") = 5 ∧ countOf none = 5 := by
  refine ⟨?_, ?_, ?_⟩
  · exact (top_param_fallback (some "7")).2.1 "7" 7 rfl (by decide) (by decide)
  · exact (top_param_fallback (some "-3")).2.2 "-3" rfl
      (Or.inr ⟨-3, by decide, by decide⟩)
  · exact (top_param_fallback none).1 rfl

/-- C8: a non-ok upstream response makes the request terminate with the
single structured error whose message is
`"GitHub API error: <status code> <status text>"`, and no SVG document is
produced. -/
theorem upstream_error_structured (response : UpstreamResponse) (top : Option String)
    (h : response.ok = false) :
    workerFetch response top = WorkerResult.errorResp "Failed to fetch repository data"
      ("GitHub API error: " ++ natToDecStr response.status ++ " " ++ response.statusText) ∧
    ∀ b, workerFetch response top ≠ WorkerResult.svg b := by
  have hf : fetchGitHubRepos response = Except.error
      ("GitHub API error: " ++ natToDecStr response.status ++ " " ++ response.statusText) := by
    unfold fetchGitHubRepos
    rw [h]
    rfl
  constructor
  · unfold workerFetch
    rw [hf]
  · intro b
    unfold workerFetch
    rw [hf]
    intro hc
    exact WorkerResult.noConfusion hc

/-- C8 witness: upstream `403 Forbidden` yields exactly the error message
`"GitHub API error: 403 Forbidden"`. -/
theorem upstream_error_structured_witness :
    workerFetch ⟨false, 403, "Forbidden", []⟩ none =
      WorkerResult.errorResp "Failed to fetch repository data"
        "GitHub API error: 403 Forbidden" := by
  rw [(upstream_error_structured ⟨false, 403, "Forbidden", []⟩ none rfl).1]
  decide

/-- C9 counterexample: a record whose primary language is present but
*empty* is not discarded by `filter(r => r.language !== null)`: it
contributes the empty string as a key of the tally, so not every tally
key is a non-empty language name. -/
theorem empty_language_not_discarded_cex :
    langsOf emptyLangRepos = [("", 1)] ∧
    ¬ (∀ kv ∈ langsOf emptyLangRepos, kv.1 ≠ "") := by
  decide

theorem tally_keys_from :
    ∀ (l : List GitHubRepo) (acc : List (String × ℕ)) (kv : String × ℕ),
      kv ∈ l.foldl tallyStep acc →
      kv.1 ∈ acc.map Prod.fst ∨ ∃ r ∈ l, r.language.getD "" = kv.1 := by
  intro l
  induction l with
  | nil =>
    intro acc kv h
    exact Or.inl (List.mem_map_of_mem _ (by simpa using h))
  | cons r rest ih =>
    intro acc kv h
    simp only [List.foldl_cons] at h
    rcases ih _ kv h with hk | ⟨r2, hr2, he⟩
    · unfold tallyStep at hk
      rcases keys_mapSet_cases hk with h2 | h2
      · exact Or.inl h2
      · exact Or.inr ⟨r, by simp, h2.symm⟩
    · exact Or.inr ⟨r2, by simp [hr2], he⟩

/-- C9 amended: every record whose primary language is *absent* (`null`)
is discarded before aggregation — the tally of any input equals the tally
of its language-present records — and every key of the tally is the
primary language string of some record that has one (that string may be
empty, since the filter checks only for `null`). -/
theorem absent_language_discarded (repos : List GitHubRepo) :
    langsOf repos = langsOf (filterRepos repos) ∧
    ∀ kv ∈ langsOf repos, ∃ r ∈ repos, r.language = some kv.1 := by
  constructor
  · have hff : filterRepos (filterRepos repos) = filterRepos repos := by
      unfold filterRepos
      rw [List.filter_filter]
      simp
    rw [show langsOf (filterRepos repos) =
      (filterRepos (filterRepos repos)).foldl tallyStep [] from rfl, hff]
    rfl
  · intro kv hkv
    rcases tally_keys_from (filterRepos repos) [] kv hkv with hk | ⟨r, hr, he⟩
    · simp at hk
    · have hrr := List.mem_filter.mp hr
      obtain ⟨a, ha⟩ := Option.isSome_iff_exists.mp hrr.2
      refine ⟨r, hrr.1, ?_⟩
      rw [ha] at he
      simp only [Option.getD_some] at he
      rw [ha, he]

/-- C9 amended witness: from the reference input, the tally key `Python`
originates from a record with that present primary language. -/
theorem absent_language_discarded_witness :
    ∃ r ∈ referenceRepos, r.language = some "Python" :=
  (absent_language_discarded referenceRepos).2 ("Python", 3) (by decide)

set_option maxRecDepth 40000 in
/-- C4: when every repository record has an absent primary language,
nothing survives the filter, the `forEach` that builds `percMap` never
runs its body (so no division by zero is evaluated), and the request
yields the well-formed empty chart: no language rows and no `NaN`
anywhere in the document. -/
theorem allAbsent_renders_empty_chart (response : UpstreamResponse) (top : Option String)
    (hok : response.ok = true) (hall : ∀ r ∈ response.body, r.language = none) :
    workerFetch response top = WorkerResult.svg emptyChart ∧
    topLangsOf (percMapOf response.body) (countOf top) = [] ∧
    containsSub emptyChart.data "NaN".data = false := by
  have hfilter : filterRepos response.body = [] := by
    unfold filterRepos
    apply List.filter_eq_nil_iff.mpr
    intro r hr
    rw [hall r hr]
    simp
  have hperc : percMapOf response.body = [] := by
    unfold percMapOf langsOf
    rw [hfilter]
    rfl
  have htop : topLangsOf (percMapOf response.body) (countOf top) = [] := by
    rw [hperc]
    unfold topLangsOf rankedOf
    exact List.take_nil
  refine ⟨?_, htop, by decide⟩
  have hf : fetchGitHubRepos response = Except.ok response.body := by
    unfold fetchGitHubRepos
    rw [hok]
    rfl
  have hg : generateSvg (percMapOf response.body) (countOf top) = emptyChart := by
    unfold generateSvg
    rw [show topLangsOf (percMapOf response.body) (countOf top) = [] from htop]
    rfl
  unfold workerFetch
  rw [hf]
  exact congrArg WorkerResult.svg hg

/-- C4 witness: a single record with absent language, upstream ok. -/
theorem allAbsent_renders_empty_chart_witness :
    workerFetch ⟨true, 200, "OK", [⟨7, "repo7", "user/repo7", 1, none⟩]⟩ none =
      WorkerResult.svg emptyChart :=
  (allAbsent_renders_empty_chart ⟨true, 200, "OK", [⟨7, "repo7", "user/repo7", 1, none⟩]⟩
    none rfl (by decide)).1

set_option maxRecDepth 40000 in
unseal Rat.mul Rat.add Rat.inv Rat.sub in
/-- C7: rendering truncates the ranked list to its first `displayCount`
entries — the row source list is exactly `take displayCount` of the
ranked list, so it has `min displayCount length` rows and the document is
the frame around exactly those rows; on the reference input with display
count 2 the document contains `Python` and `TypeScript` but not
`JavaScript`. -/
theorem render_truncates_to_displayCount (pm : List (String × String)) (count : ℕ)
    (_hpos : 0 < count) :
    topLangsOf pm count = (rankedOf pm).take count ∧
    (topLangsOf pm count).length = min count (rankedOf pm).length ∧
    generateSvg pm count = svgFrame (55 + (topLangsOf pm count).length * 40 + 30)
      (String.join ((topLangsOf pm count).enum.map
        (fun ip => langItemRow ip.2.1 ip.2.2 ip.1))) ∧
    containsSub (generateSvg (percMapOf referenceRepos) 2).data "Python".data = true ∧
    containsSub (generateSvg (percMapOf referenceRepos) 2).data "TypeScript".data = true ∧
    containsSub (generateSvg (percMapOf referenceRepos) 2).data "JavaScript".data = false := by
  refine ⟨rfl, List.length_take count (rankedOf pm), rfl, by decide, by decide, by decide⟩

/-- C7 witness: the truncation facts at display count 2 on the reference
input. -/
theorem render_truncates_to_displayCount_witness :
    topLangsOf (percMapOf referenceRepos) 2 = (rankedOf (percMapOf referenceRepos)).take 2 ∧
    (topLangsOf (percMapOf referenceRepos) 2).length =
      min 2 (rankedOf (percMapOf referenceRepos)).length :=
  ⟨(render_truncates_to_displayCount (percMapOf referenceRepos) 2 (by decide)).1,
   (render_truncates_to_displayCount (percMapOf referenceRepos) 2 (by decide)).2.1⟩

/-! ## Lemmas: shape of the hex color -/

theorem wordBytes_lt (x : ℕ) : ∀ b ∈ wordBytes x, b < 256 := by
  intro b hb
  simp only [wordBytes, List.mem_cons, List.not_mem_nil, or_false] at hb
  rcases hb with rfl | rfl | rfl | rfl <;> exact Nat.mod_lt _ (by norm_num)

theorem sha1Bytes_length (m : List ℕ) : (sha1Bytes m).length = 20 := by
  unfold sha1Bytes wordBytes
  simp

theorem digest_bytes_lt (a b c d e : ℕ) :
    ∀ x ∈ wordBytes a ++ wordBytes b ++ wordBytes c ++ wordBytes d ++ wordBytes e,
      x < 256 := by
  intro x hx
  simp only [List.mem_append] at hx
  rcases hx with ((((h | h) | h) | h) | h) <;> exact wordBytes_lt _ x h

theorem sha1Bytes_lt (m : List ℕ) : ∀ b ∈ sha1Bytes m, b < 256 := by
  intro b hb
  unfold sha1Bytes at hb
  exact digest_bytes_lt _ _ _ _ _ b hb

theorem natHexAux_zero (fuel : ℕ) : natHexAux fuel 0 = [] := by
  cases fuel <;> rfl

theorem natHexAux_lt : ∀ (fuel n : ℕ), ∀ d ∈ natHexAux fuel n, d < 16 := by
  intro fuel
  induction fuel with
  | zero =>
    intro n d hd
    simp [natHexAux] at hd
  | succ f ih =>
    intro n d hd
    cases n with
    | zero => simp [natHexAux] at hd
    | succ m =>
      simp only [natHexAux, List.mem_cons] at hd
      rcases hd with h | h
      · subst h
        exact Nat.mod_lt _ (by norm_num)
      · exact ih _ _ h

theorem natHexAux_length_le : ∀ (fuel n k : ℕ), n ≤ fuel → n < 16 ^ k →
    (natHexAux fuel n).length ≤ k := by
  intro fuel
  induction fuel with
  | zero =>
    intro n k _ _
    simp [natHexAux]
  | succ f ih =>
    intro n k hn hk
    cases n with
    | zero => simp [natHexAux_zero]
    | succ m =>
      cases k with
      | zero =>
        simp only [pow_zero] at hk
        omega
      | succ k2 =>
        simp only [natHexAux, List.length_cons]
        have h1 : (m + 1) / 16 ≤ f := by
          have := Nat.div_lt_self (show 0 < m + 1 by omega) (show 1 < 16 by norm_num)
          omega
        have h2 : (m + 1) / 16 < 16 ^ k2 := by
          rw [Nat.div_lt_iff_lt_mul (by norm_num)]
          calc m + 1 < 16 ^ (k2 + 1) := hk
            _ = 16 ^ k2 * 16 := by ring
        have := ih ((m + 1) / 16) k2 h1 h2
        omega

theorem hexDigitChar_hex : ∀ d < 16, isHexLower (hexDigitChar d) = true := by
  decide

theorem natToHexChars_hex (n : ℕ) : ∀ c ∈ natToHexChars n, isHexLower c = true := by
  intro c hc
  unfold natToHexChars at hc
  split at hc
  · simp only [List.mem_singleton] at hc
    subst hc
    decide
  · simp only [List.mem_map] at hc
    obtain ⟨d, hd, rfl⟩ := hc
    exact hexDigitChar_hex d (natHexAux_lt n n d (List.mem_reverse.mp hd))

theorem natToHexChars_length_le (n : ℕ) (h : n < 256) :
    (natToHexChars n).length ≤ 2 := by
  unfold natToHexChars
  split
  · simp
  · rw [List.length_map, List.length_reverse]
    have h2 : n < 16 ^ 2 := by norm_num [h]
    exact natHexAux_length_le n n 2 le_rfl h2

theorem byteHexChars_length (b : ℕ) (h : b < 256) : (byteHexChars b).length = 2 := by
  unfold byteHexChars padStart2
  rw [List.length_append, List.length_replicate]
  have h2 := natToHexChars_length_le b h
  have h3 : (natToHexChars b).length ≠ 0 := by
    unfold natToHexChars
    split
    · simp
    · rw [List.length_map, List.length_reverse]
      rename_i hne
      intro hlen
      rw [List.length_eq_zero] at hlen
      have : (0:ℕ) < b := Nat.pos_of_ne_zero hne
      cases b with
      | zero => exact hne rfl
      | succ m => simp [natHexAux] at hlen
  omega

theorem byteHexChars_hex (b : ℕ) : ∀ c ∈ byteHexChars b, isHexLower c = true := by
  intro c hc
  unfold byteHexChars padStart2 at hc
  rcases List.mem_append.mp hc with h | h
  · have := List.eq_of_mem_replicate h
    subst this
    decide
  · exact natToHexChars_hex b c h

theorem sha1HashChars_length (s : String) : (sha1HashChars s).length = 40 := by
  have hconst : ∀ l : List ℕ, (∀ b ∈ l, b < 256) →
      ((l.map byteHexChars).map List.length).sum = 2 * l.length := by
    intro l
    induction l with
    | nil =>
      intro _
      simp
    | cons a rest ih =>
      intro h
      simp only [List.map_cons, List.sum_cons, List.length_cons]
      rw [ih (fun b hb => h b (by simp [hb])), byteHexChars_length a (h a (by simp))]
      ring
  unfold sha1HashChars
  rw [List.length_flatten, hconst _ (sha1Bytes_lt _), sha1Bytes_length]

/-- The color computed for any string is `'#'` followed by exactly six
lowercase hexadecimal characters. -/
theorem stringToHexColor_shape (s : String) :
    ∃ t, stringToHexColor s = String.mk ('#' :: t) ∧ t.length = 6 ∧
      ∀ c ∈ t, isHexLower c = true := by
  refine ⟨(sha1HashChars s).take 6, rfl, ?_, ?_⟩
  · rw [List.length_take, sha1HashChars_length]
    decide
  · intro c hc
    have hmem : c ∈ sha1HashChars s := List.take_subset _ _ hc
    unfold sha1HashChars at hmem
    obtain ⟨block, hb, hcb⟩ := List.mem_flatten.mp hmem
    obtain ⟨b, _, rfl⟩ := List.mem_map.mp hb
    exact byteHexChars_hex b c hcb

/-- C5: the color assignment is a deterministic function of the language
name alone — two invocations in any two process instances return the
same value, namely the pure `stringToHexColor` of the name, which is a
well-formed 6-hex-digit color. -/
theorem color_invocation_deterministic :
    ∀ (p1 p2 : ProcessInstance) (s : String),
      stringToHexColorInvoke p1 s = stringToHexColorInvoke p2 s ∧
      stringToHexColorInvoke p1 s = stringToHexColor s ∧
      ∃ t, stringToHexColorInvoke p1 s = String.mk ('#' :: t) ∧ t.length = 6 ∧
        ∀ c ∈ t, isHexLower c = true :=
  fun _ _ s => ⟨rfl, rfl, stringToHexColor_shape s⟩

/-- C10: for every input string, the color computation returns `'#'`
followed by exactly six lowercase hexadecimal characters. -/
theorem color_well_formed_hex (s : String) :
    ∃ t, stringToHexColor s = String.mk ('#' :: t) ∧ t.length = 6 ∧
      ∀ c ∈ t, isHexLower c = true :=
  stringToHexColor_shape s

set_option maxRecDepth 40000 in
/-- C10 witness: on the empty string the color evaluates to `"#da39a3"`
(the leading six hex digits of the SHA-1 digest of the empty message). -/
theorem color_well_formed_hex_witness :
    stringToHexColor "" = "#da39a3" ∧
    ∃ t, stringToHexColor "" = String.mk ('#' :: t) ∧ t.length = 6 := by
  refine ⟨by decide, ?_⟩
  obtain ⟨t, h1, h2, _⟩ := color_well_formed_hex ""
  exact ⟨t, h1, h2⟩

end GhLangStats
